import Mathlib

/-!
# Verification of the mite_ms tmap pipeline specification

This file embeds the pipeline of `src/mite_tmap/module/main.py` in Lean 4.
The orchestration code under `src/` (the `DataManager` row extraction, the
`PlotManager` fingerprint cache handling, the k-NN edge-building loop) is
translated directly from the Python source.  The algorithmic core the
specification describes (the ANN index, the graph builder with its
connectivity augmentation, the force-directed layout engine and the
angular/cosine metric) lives in the external libraries `annoy`, `tmap` and
`scipy`, whose sources are not part of this repository; those parts are
modelled from the specification, as marked in the doc comments of the
corresponding definitions.

Machine floating-point numbers are modelled with exact rationals `ℚ`
(weights, coordinates), and the real-analytic facts about the cosine metric
are stated over `ℝ` with `EuclideanSpace`.
-/

namespace MiteMS

/-! ## Weight-ordered pairs used when sorting query results -/

/-- Order on `(neighbor, distance)` pairs by their distance component. -/
def wLE {N : ℕ} {α : Type} [LinearOrder α] (p q : Fin N × α) : Prop :=
  p.2 ≤ q.2

instance {N : ℕ} {α : Type} [LinearOrder α] :
    DecidableRel (@wLE N α _) := fun p q =>
  inferInstanceAs (Decidable (p.2 ≤ q.2))

instance {N : ℕ} {α : Type} [LinearOrder α] : IsTotal (Fin N × α) wLE :=
  ⟨fun p q => le_total p.2 q.2⟩

instance {N : ℕ} {α : Type} [LinearOrder α] : IsTrans (Fin N × α) wLE :=
  ⟨fun _ _ _ h h2 => le_trans h h2⟩

/-! ## Graphs over node indices `0..N-1` with weighted undirected edges -/

/-- Normalize an unordered pair of node indices: store the smaller first.
Modelled from the spec: a `KNNEdge` is undirected, stored once per
unordered pair. -/
def edgeKey {N : ℕ} (i j : Fin N) : Fin N × Fin N :=
  if i ≤ j then (i, j) else (j, i)

/-- Modelled from the spec: the `Graph` of §3 — node indices `0..N-1` plus a
deduplicated list of weighted `KNNEdge`s keyed by normalized pairs. -/
structure Graph (N : ℕ) (α : Type) where
  edges : List ((Fin N × Fin N) × α)

/-- Adjacency: some stored edge joins `i` and `j` (in either stored order). -/
def Graph.Adj {N : ℕ} {α : Type} (g : Graph N α) (i j : Fin N) : Prop :=
  ∃ w, ((i, j), w) ∈ g.edges ∨ ((j, i), w) ∈ g.edges

/-- Connectivity between two nodes: the reflexive-transitive closure of
adjacency. -/
def Graph.Conn {N : ℕ} {α : Type} (g : Graph N α) : Fin N → Fin N → Prop :=
  Relation.ReflTransGen g.Adj

/-- The graph forms a single connected component: every node reaches every
other node. -/
def Graph.oneComponent {N : ℕ} {α : Type} (g : Graph N α) : Prop :=
  ∀ i j : Fin N, g.Conn i j

/-- Append one (normalized) edge to the graph. -/
def Graph.addEdge {N : ℕ} {α : Type} (g : Graph N α) (i j : Fin N) (w : α) :
    Graph N α :=
  ⟨g.edges ++ [(edgeKey i j, w)]⟩

/-! ## Merging proposed edges: dedup by unordered pair, keep minimum weight -/

/-- Look up the stored weight of a (normalized) pair. -/
def lookupEdge {N : ℕ} {α : Type} :
    List ((Fin N × Fin N) × α) → Fin N × Fin N → Option α
  | [], _ => none
  | (q, u) :: rest, p => if q = p then some u else lookupEdge rest p

/-- Insert a proposed edge, merging with an already stored edge of the same
unordered pair by keeping the minimum weight.  Modelled from the spec
(§4.2): when an edge is proposed twice (both directions queried), keep the
minimum observed weight. -/
def insertEdge {N : ℕ} {α : Type} [LinearOrder α] :
    List ((Fin N × Fin N) × α) → Fin N × Fin N → α →
      List ((Fin N × Fin N) × α)
  | [], p, w => [(p, w)]
  | (q, u) :: rest, p, w =>
    if q = p then (q, min u w) :: rest else (q, u) :: insertEdge rest p w

/-- Merge a list of directed edge proposals `((i, j), w)` into a deduplicated
undirected edge list.  Modelled from the spec (§4.2). -/
def mergeEdges {N : ℕ} {α : Type} [LinearOrder α] :
    List ((Fin N × Fin N) × α) → List ((Fin N × Fin N) × α)
  | [] => []
  | e :: rest => insertEdge (mergeEdges rest) (edgeKey e.1.1 e.1.2) e.2

/-- The weights observed for unordered pair `p` among the proposals `l`, in
proposal order. -/
def observed {N : ℕ} {α : Type} (l : List ((Fin N × Fin N) × α))
    (p : Fin N × Fin N) : List α :=
  (l.filter fun e => decide (edgeKey e.1.1 e.1.2 = p)).map (fun e => e.2)

/-- Combine an optional previously stored weight with a new observation. -/
def combineW {α : Type} [LinearOrder α] (o : Option α) (w : α) : α :=
  match o with
  | none => w
  | some u => min u w

/-- The minimum of a list of observed weights, `none` when nothing was
observed. -/
def obsMin {α : Type} [LinearOrder α] (l : List α) : Option α :=
  l.foldr (fun w o => some (combineW o w)) none

/-! ## ANNIndex.query -/

/-- Modelled from the spec (§4.1): `ANNIndex.query(i, k)` — the repository
calls `annoy.get_nns_by_item`, whose source is not part of this repository.
The forest of randomized trees only influences the query through the
candidate index set it produces, which is taken here as the parameter
`cand`; the distance function `d` abstracts the configured metric
(`distanceMetric`).  The query excludes `i` itself, computes exact distances
for the unified candidate set, sorts by non-decreasing distance and returns
the top results, with `k` silently clamped to `N - 1`. -/
def query (N : ℕ) {α : Type} [LinearOrder α] (d : Fin N → Fin N → α)
    (cand : List (Fin N)) (i : Fin N) (k : ℕ) : List (Fin N × α) :=
  ((((cand.filter fun j => decide (j ≠ i)).dedup.map
      fun j => (j, d i j)).insertionSort wLE).take (min k (N - 1)))

/-- Modelled from the spec (§4.2): the directed edge proposals of
`GraphBuilder.fromQueries` — for every node `i`, call `ANNIndex.query(i, k)`
and add an edge `(i, j, distance)` for each result.  This is the
edge-building loop of `PlotManager.plot_fps_sns` (src lines 286-288). -/
def proposals (N : ℕ) {α : Type} [LinearOrder α] (d : Fin N → Fin N → α)
    (candFn : Fin N → List (Fin N)) (k : ℕ) :
    List ((Fin N × Fin N) × α) :=
  (List.finRange N).flatMap fun i =>
    (query N d (candFn i) i k).map fun p => ((i, p.1), p.2)

/-- The merged (deduplicated, min-weighted) k-NN graph before augmentation. -/
def knnGraph (N : ℕ) {α : Type} [LinearOrder α] (d : Fin N → Fin N → α)
    (candFn : Fin N → List (Fin N)) (k : ℕ) : Graph N α :=
  ⟨mergeEdges (proposals N d candFn k)⟩

/-! ## GraphBuilder augmentation: merge connected components until one -/

/-- Merge the label class of `j` into the label class of `i`: every node
labelled like `j` is relabelled like `i`. -/
def mergeLabels {N : ℕ} (lab : Fin N → Fin N) (i j : Fin N) : Fin N → Fin N :=
  fun v => if lab v = lab j then lab i else lab v

/-- Component labels of the merged k-NN graph, computed by merging the label
classes of the endpoints of every stored edge, starting from the discrete
labelling.  Modelled from the spec (§4.2): compute connected components of
the resulting graph. -/
def initLabels {N : ℕ} {α : Type} (es : List ((Fin N × Fin N) × α)) :
    Fin N → Fin N :=
  es.foldr (fun e lab => mergeLabels lab e.1.1 e.1.2) (fun v => v)

/-- Number of distinct component labels. -/
def countLabels {N : ℕ} (lab : Fin N → Fin N) : ℕ :=
  (Finset.image lab Finset.univ).card

/-- All ordered pairs of nodes whose component labels differ. -/
def crossPairs {N : ℕ} (lab : Fin N → Fin N) : List (Fin N × Fin N) :=
  ((List.finRange N).flatMap fun u =>
    (List.finRange N).map fun v => (u, v)).filter
      fun p => decide (lab p.1 ≠ lab p.2)

/-- Modelled from the spec (§4.2): the globally closest cross-component
pair, computed by brute-force distance over the candidate pairs. -/
def closestCross {N : ℕ} {α : Type} [LinearOrder α]
    (d : Fin N → Fin N → α) (lab : Fin N → Fin N) :
    Option (Fin N × Fin N) :=
  (crossPairs lab).argmin fun p => d p.1 p.2

/-- Modelled from the spec (§4.2): if more than one component exists,
augment by connecting components pairwise using the globally closest
cross-component pair, repeating until exactly one component remains.
The fuel argument bounds the loop; each round strictly decreases the number
of distinct labels, so fuel `N` always suffices. -/
def augmentLoop {N : ℕ} {α : Type} [LinearOrder α]
    (d : Fin N → Fin N → α) :
    ℕ → Graph N α → (Fin N → Fin N) → Graph N α
  | 0, g, _ => g
  | fuel + 1, g, lab =>
    if countLabels lab ≤ 1 then g
    else
      match closestCross d lab with
      | none => g
      | some p =>
        augmentLoop d fuel (g.addEdge p.1 p.2 (d p.1 p.2))
          (mergeLabels lab p.1 p.2)

/-- Modelled from the spec (§4.2): the mandatory component augmentation. -/
def augment {N : ℕ} {α : Type} [LinearOrder α]
    (d : Fin N → Fin N → α) (g : Graph N α) : Graph N α :=
  augmentLoop d N g (initLabels g.edges)

/-- Modelled from the spec (§4.2): `GraphBuilder.fromQueries` — query every
node, merge proposed edges keeping minimum weights, then augment components
until the graph is connected. -/
def fromQueries (N : ℕ) {α : Type} [LinearOrder α] (d : Fin N → Fin N → α)
    (candFn : Fin N → List (Fin N)) (k : ℕ) : Graph N α :=
  augment d (knnGraph N d candFn k)

/-! ## Lemmas about edge merging -/

theorem lookupEdge_insertEdge_self {N : ℕ} {α : Type} [LinearOrder α]
    (es : List ((Fin N × Fin N) × α)) (p : Fin N × Fin N) (w : α) :
    lookupEdge (insertEdge es p w) p = some (combineW (lookupEdge es p) w) := by
  induction es with
  | nil => simp [insertEdge, lookupEdge, combineW]
  | cons e rest ih =>
    obtain ⟨q, u⟩ := e
    by_cases h : q = p
    · subst h
      simp [insertEdge, lookupEdge, combineW]
    · simp [insertEdge, lookupEdge, h, ih]

theorem lookupEdge_insertEdge_ne {N : ℕ} {α : Type} [LinearOrder α]
    (es : List ((Fin N × Fin N) × α)) (p q : Fin N × Fin N) (w : α)
    (hqp : q ≠ p) :
    lookupEdge (insertEdge es p w) q = lookupEdge es q := by
  induction es with
  | nil => simp [insertEdge, lookupEdge, hqp.symm]
  | cons e rest ih =>
    obtain ⟨r, u⟩ := e
    by_cases h : r = p
    · subst h
      simp [insertEdge, lookupEdge, hqp.symm]
    · by_cases h2 : r = q <;> simp [insertEdge, lookupEdge, h, h2, ih, hqp]

theorem lookupEdge_mergeEdges {N : ℕ} {α : Type} [LinearOrder α]
    (l : List ((Fin N × Fin N) × α)) (p : Fin N × Fin N) :
    lookupEdge (mergeEdges l) p = obsMin (observed l p) := by
  induction l with
  | nil => simp [mergeEdges, lookupEdge, observed, obsMin]
  | cons e rest ih =>
    by_cases h : edgeKey e.1.1 e.1.2 = p
    · rw [mergeEdges, h, lookupEdge_insertEdge_self, ih]
      simp [observed, obsMin, h]
    · rw [mergeEdges, lookupEdge_insertEdge_ne _ _ _ _ (fun hpq => h hpq.symm),
        ih]
      simp [observed, obsMin, h]

theorem keys_insertEdge {N : ℕ} {α : Type} [LinearOrder α]
    (es : List ((Fin N × Fin N) × α)) (p : Fin N × Fin N) (w : α) :
    (insertEdge es p w).map Prod.fst =
      if p ∈ es.map Prod.fst then es.map Prod.fst
      else es.map Prod.fst ++ [p] := by
  induction es with
  | nil => simp [insertEdge]
  | cons e rest ih =>
    obtain ⟨r, u⟩ := e
    by_cases h : r = p
    · subst h
      simp [insertEdge]
    · have hpr : p ≠ r := fun hh => h hh.symm
      simp only [insertEdge, if_neg h, List.map_cons, ih, List.mem_cons, hpr,
        false_or]
      by_cases h2 : p ∈ rest.map Prod.fst <;> simp [h2]

theorem nodup_keys_insertEdge {N : ℕ} {α : Type} [LinearOrder α]
    (es : List ((Fin N × Fin N) × α)) (p : Fin N × Fin N) (w : α)
    (hnd : (es.map Prod.fst).Nodup) :
    ((insertEdge es p w).map Prod.fst).Nodup := by
  rw [keys_insertEdge]
  by_cases h : p ∈ es.map Prod.fst
  · simpa [h] using hnd
  · simp [h, List.nodup_append, hnd]

theorem nodup_keys_mergeEdges {N : ℕ} {α : Type} [LinearOrder α]
    (l : List ((Fin N × Fin N) × α)) :
    ((mergeEdges l).map Prod.fst).Nodup := by
  induction l with
  | nil => simp [mergeEdges]
  | cons e rest ih => exact nodup_keys_insertEdge _ _ _ ih

theorem mem_insertEdge {N : ℕ} {α : Type} [LinearOrder α]
    (es : List ((Fin N × Fin N) × α)) (p : Fin N × Fin N) (w : α)
    (e : (Fin N × Fin N) × α) (hmem : e ∈ insertEdge es p w) :
    e ∈ es ∨ (e.1 = p ∧ e.2 = w) := by
  induction es with
  | nil =>
    simp only [insertEdge, List.mem_singleton] at hmem
    exact Or.inr (by simp [hmem])
  | cons f rest ih =>
    obtain ⟨q, u⟩ := f
    by_cases h : q = p
    · subst h
      rcases List.mem_cons.mp (by simpa [insertEdge] using hmem) with h1 | h1
      · rcases min_choice u w with hm | hm
        · exact Or.inl (by simp [h1, hm])
        · exact Or.inr (by simp [h1, hm])
      · exact Or.inl (List.mem_cons_of_mem _ h1)
    · rcases List.mem_cons.mp (by simpa [insertEdge, h] using hmem) with h1 | h1
      · exact Or.inl (by simp [h1])
      · rcases ih h1 with h2 | h2
        · exact Or.inl (List.mem_cons_of_mem _ h2)
        · exact Or.inr h2

/-- Every stored merged edge comes from one of the proposals: its key is the
normalized key of that proposal and its weight is the weight of that
proposal. -/
theorem mem_mergeEdges {N : ℕ} {α : Type} [LinearOrder α]
    (l : List ((Fin N × Fin N) × α)) (e : (Fin N × Fin N) × α)
    (hmem : e ∈ mergeEdges l) :
    ∃ p ∈ l, edgeKey p.1.1 p.1.2 = e.1 ∧ p.2 = e.2 := by
  induction l with
  | nil => simp [mergeEdges] at hmem
  | cons f rest ih =>
    rcases mem_insertEdge _ _ _ _ hmem with h1 | h1
    · obtain ⟨p, hp, hk, hw⟩ := ih h1
      exact ⟨p, List.mem_cons_of_mem _ hp, hk, hw⟩
    · exact ⟨f, List.mem_cons_self _ _, h1.1.symm, h1.2.symm⟩

theorem edgeKey_idem {N : ℕ} (i j : Fin N) :
    edgeKey (edgeKey i j).1 (edgeKey i j).2 = edgeKey i j := by
  unfold edgeKey
  by_cases h : i ≤ j
  · simp [h]
  · simp [h, le_of_lt (lt_of_not_le h)]

/-- Every stored merged edge has a normalized key. -/
theorem mergeEdges_key_norm {N : ℕ} {α : Type} [LinearOrder α]
    (l : List ((Fin N × Fin N) × α)) (e : (Fin N × Fin N) × α)
    (hmem : e ∈ mergeEdges l) :
    edgeKey e.1.1 e.1.2 = e.1 := by
  obtain ⟨p, _, hk, _⟩ := mem_mergeEdges l e hmem
  rw [← hk, edgeKey_idem]

/-! ## Lemmas about queries and proposals -/

/-- A query result pair names a neighbor different from the queried node and
carries the exact distance to it. -/
theorem mem_query {N : ℕ} {α : Type} [LinearOrder α] (d : Fin N → Fin N → α)
    (cand : List (Fin N)) (i : Fin N) (k : ℕ) (p : Fin N × α)
    (hp : p ∈ query N d cand i k) : p.1 ≠ i ∧ p.2 = d i p.1 := by
  unfold query at hp
  have h1 := List.mem_of_mem_take hp
  have h2 := (List.mem_insertionSort wLE).mp h1
  obtain ⟨j, hj, hpe⟩ := List.mem_map.mp h2
  have hjf := List.mem_dedup.mp hj
  have hji : j ≠ i := of_decide_eq_true (List.mem_filter.mp hjf).2
  constructor
  · rw [← hpe]
    exact hji
  · rw [← hpe]

/-- Every proposal comes from the query of some node. -/
theorem mem_proposals {N : ℕ} {α : Type} [LinearOrder α]
    (d : Fin N → Fin N → α) (candFn : Fin N → List (Fin N)) (k : ℕ)
    (e : (Fin N × Fin N) × α) (hmem : e ∈ proposals N d candFn k) :
    ∃ i : Fin N, ∃ p ∈ query N d (candFn i) i k, e = ((i, p.1), p.2) := by
  obtain ⟨i, _, hi⟩ := List.mem_flatMap.mp hmem
  obtain ⟨p, hp, hpe⟩ := List.mem_map.mp hi
  exact ⟨i, p, hp, hpe.symm⟩

theorem edgeKey_ne {N : ℕ} (i j : Fin N) (h : i ≠ j) :
    (edgeKey i j).1 ≠ (edgeKey i j).2 := by
  unfold edgeKey
  by_cases hle : i ≤ j
  · simpa [hle] using h
  · simpa [hle] using fun hji => h hji.symm

/-- No merged k-NN edge is a self-loop. -/
theorem knnGraph_no_self {N : ℕ} {α : Type} [LinearOrder α]
    (d : Fin N → Fin N → α) (candFn : Fin N → List (Fin N)) (k : ℕ)
    (e : (Fin N × Fin N) × α) (hmem : e ∈ (knnGraph N d candFn k).edges) :
    e.1.1 ≠ e.1.2 := by
  obtain ⟨pr, hpr, hk, _⟩ := mem_mergeEdges _ e hmem
  obtain ⟨i, p, hp, hpe⟩ := mem_proposals d candFn k pr hpr
  have hne : pr.1.1 ≠ pr.1.2 := by
    rw [hpe]
    exact fun hii => (mem_query d (candFn i) i k p hp).1 hii.symm
  rw [← hk]
  exact edgeKey_ne _ _ hne

/-- Properties of individual edges survive the augmentation loop, provided
every added cross-component edge satisfies them. -/
theorem augmentLoop_no_self {N : ℕ} {α : Type} [LinearOrder α]
    (d : Fin N → Fin N → α) :
    ∀ (fuel : ℕ) (g : Graph N α) (lab : Fin N → Fin N),
      (∀ e ∈ g.edges, e.1.1 ≠ e.1.2) →
      ∀ e ∈ (augmentLoop d fuel g lab).edges, e.1.1 ≠ e.1.2 := by
  intro fuel
  induction fuel with
  | zero => intro g lab hg; exact hg
  | succ fuel ih =>
    intro g lab hg
    rw [augmentLoop]
    by_cases hc : countLabels lab ≤ 1
    · simpa [hc] using hg
    · simp only [if_neg hc]
      cases hcc : closestCross d lab with
      | none => exact hg
      | some p =>
        apply ih
        intro e he
        rcases List.mem_append.mp he with h1 | h1
        · exact hg e h1
        · have hpp : p ∈ crossPairs lab :=
            List.argmin_mem hcc
          have hlab : lab p.1 ≠ lab p.2 :=
            of_decide_eq_true (List.mem_filter.mp hpp).2
          have hne : p.1 ≠ p.2 := fun hh => hlab (by rw [hh])
          have he2 : e = (edgeKey p.1 p.2, d p.1 p.2) := by
            simpa using h1
          rw [he2]
          exact edgeKey_ne _ _ hne

/-! ## Connectivity of the augmented graph -/

theorem Graph.Adj.symm {N : ℕ} {α : Type} {g : Graph N α} {i j : Fin N}
    (h : g.Adj i j) : g.Adj j i := by
  obtain ⟨w, hw⟩ := h
  exact ⟨w, hw.symm⟩

theorem Graph.conn_of_adj {N : ℕ} {α : Type} {g : Graph N α} {i j : Fin N}
    (h : g.Adj i j) : g.Conn i j :=
  Relation.ReflTransGen.single h

theorem Graph.conn_refl {N : ℕ} {α : Type} (g : Graph N α) (i : Fin N) :
    g.Conn i i :=
  Relation.ReflTransGen.refl

theorem Graph.conn_trans {N : ℕ} {α : Type} {g : Graph N α} {i j l : Fin N}
    (h1 : g.Conn i j) (h2 : g.Conn j l) : g.Conn i l :=
  Relation.ReflTransGen.trans h1 h2

theorem Graph.conn_mono {N : ℕ} {α : Type} {g g2 : Graph N α}
    (hsub : ∀ e ∈ g.edges, e ∈ g2.edges) {i j : Fin N} (h : g.Conn i j) :
    g2.Conn i j := by
  refine Relation.ReflTransGen.mono ?_ h
  intro u v huv
  obtain ⟨w, hw⟩ := huv
  rcases hw with hw | hw
  · exact ⟨w, Or.inl (hsub _ hw)⟩
  · exact ⟨w, Or.inr (hsub _ hw)⟩

theorem Graph.addEdge_mem {N : ℕ} {α : Type} (g : Graph N α) (i j : Fin N)
    (w : α) : ∀ e ∈ g.edges, e ∈ (g.addEdge i j w).edges := by
  intro e he
  exact List.mem_append.mpr (Or.inl he)

theorem Graph.addEdge_adj {N : ℕ} {α : Type} (g : Graph N α) (i j : Fin N)
    (w : α) : (g.addEdge i j w).Adj i j := by
  refine ⟨w, ?_⟩
  by_cases h : i ≤ j
  · exact Or.inl (by simp [Graph.addEdge, edgeKey, h])
  · exact Or.inr (by simp [Graph.addEdge, edgeKey, h])

theorem mergeLabels_conn {N : ℕ} {α : Type} {g : Graph N α}
    {lab : Fin N → Fin N} {i j : Fin N}
    (hinv : ∀ u v, lab u = lab v → g.Conn u v) (hadj : g.Adj i j) :
    ∀ u v, mergeLabels lab i j u = mergeLabels lab i j v → g.Conn u v := by
  intro u v huv
  unfold mergeLabels at huv
  by_cases hu : lab u = lab j <;> by_cases hv : lab v = lab j
  · exact hinv u v (hu.trans hv.symm)
  · simp only [if_pos hu, if_neg hv] at huv
    exact Graph.conn_trans (hinv u j hu)
      (Graph.conn_trans (Graph.conn_of_adj hadj.symm) (hinv i v huv))
  · simp only [if_neg hu, if_pos hv] at huv
    exact Graph.conn_trans (hinv u i huv)
      (Graph.conn_trans (Graph.conn_of_adj hadj) (hinv j v hv.symm))
  · simp only [if_neg hu, if_neg hv] at huv
    exact hinv u v huv

theorem initLabels_conn {N : ℕ} {α : Type} (g : Graph N α) :
    ∀ (es : List ((Fin N × Fin N) × α)), (∀ e ∈ es, e ∈ g.edges) →
      ∀ u v, initLabels es u = initLabels es v → g.Conn u v := by
  intro es
  induction es with
  | nil =>
    intro _ u v huv
    unfold initLabels at huv
    simp only [List.foldr_nil] at huv
    rw [huv]
    exact g.conn_refl v
  | cons e rest ih =>
    intro hsub u v huv
    have hadj : g.Adj e.1.1 e.1.2 := by
      refine ⟨e.2, Or.inl ?_⟩
      have he : ((e.1.1, e.1.2), e.2) = e := rfl
      rw [he]
      exact hsub e (List.mem_cons_self _ _)
    have hrest : ∀ f ∈ rest, f ∈ g.edges := fun f hf =>
      hsub f (List.mem_cons_of_mem _ hf)
    unfold initLabels at huv
    simp only [List.foldr_cons] at huv
    exact mergeLabels_conn (ih hrest) hadj u v huv

theorem countLabels_le_one {N : ℕ} {lab : Fin N → Fin N}
    (h : countLabels lab ≤ 1) (u v : Fin N) : lab u = lab v :=
  Finset.card_le_one.mp h (lab u)
    (Finset.mem_image_of_mem lab (Finset.mem_univ u)) (lab v)
    (Finset.mem_image_of_mem lab (Finset.mem_univ v))

theorem closestCross_isSome {N : ℕ} {α : Type} [LinearOrder α]
    (d : Fin N → Fin N → α) {lab : Fin N → Fin N}
    (h : 1 < countLabels lab) : ∃ p, closestCross d lab = some p := by
  obtain ⟨a, ha, b, hb, hab⟩ := Finset.one_lt_card.mp h
  obtain ⟨u, _, hu⟩ := Finset.mem_image.mp ha
  obtain ⟨v, _, hv⟩ := Finset.mem_image.mp hb
  have huv : lab u ≠ lab v := by rw [hu, hv]; exact hab
  have hmem : (u, v) ∈ crossPairs lab := by
    unfold crossPairs
    refine List.mem_filter.mpr ⟨?_, decide_eq_true huv⟩
    exact List.mem_flatMap.mpr ⟨u, List.mem_finRange u,
      List.mem_map.mpr ⟨v, List.mem_finRange v, rfl⟩⟩
  cases hcc : closestCross d lab with
  | none =>
    unfold closestCross at hcc
    rw [List.argmin_eq_none] at hcc
    rw [hcc] at hmem
    exact absurd hmem (List.not_mem_nil _)
  | some p => exact ⟨p, rfl⟩

theorem mergeLabels_image_subset {N : ℕ} (lab : Fin N → Fin N) (i j : Fin N)
    (hne : lab i ≠ lab j) :
    Finset.image (mergeLabels lab i j) Finset.univ ⊆
      (Finset.image lab Finset.univ).erase (lab j) := by
  intro x hx
  obtain ⟨v, _, hv⟩ := Finset.mem_image.mp hx
  unfold mergeLabels at hv
  by_cases h : lab v = lab j
  · rw [if_pos h] at hv
    exact Finset.mem_erase.mpr ⟨hv ▸ hne,
      hv ▸ Finset.mem_image_of_mem lab (Finset.mem_univ i)⟩
  · rw [if_neg h] at hv
    exact Finset.mem_erase.mpr ⟨hv ▸ h,
      hv ▸ Finset.mem_image_of_mem lab (Finset.mem_univ v)⟩

theorem countLabels_mergeLabels_lt {N : ℕ} (lab : Fin N → Fin N)
    (i j : Fin N) (hne : lab i ≠ lab j) :
    countLabels (mergeLabels lab i j) < countLabels lab := by
  have h1 := Finset.card_le_card (mergeLabels_image_subset lab i j hne)
  have hjmem : lab j ∈ Finset.image lab Finset.univ :=
    Finset.mem_image_of_mem lab (Finset.mem_univ j)
  have h2 := Finset.card_erase_of_mem hjmem
  have h3 : 0 < (Finset.image lab Finset.univ).card :=
    Finset.card_pos.mpr ⟨lab j, hjmem⟩
  unfold countLabels
  omega

theorem augmentLoop_connected {N : ℕ} {α : Type} [LinearOrder α]
    (d : Fin N → Fin N → α) :
    ∀ (fuel : ℕ) (g : Graph N α) (lab : Fin N → Fin N),
      (∀ u v, lab u = lab v → g.Conn u v) →
      countLabels lab ≤ fuel + 1 →
      (augmentLoop d fuel g lab).oneComponent := by
  intro fuel
  induction fuel with
  | zero =>
    intro g lab hinv hcount u v
    exact hinv u v (countLabels_le_one hcount u v)
  | succ fuel ih =>
    intro g lab hinv hcount
    rw [augmentLoop]
    by_cases hc : countLabels lab ≤ 1
    · intro u v
      simp only [if_pos hc]
      exact hinv u v (countLabels_le_one hc u v)
    · simp only [if_neg hc]
      obtain ⟨p, hp⟩ := closestCross_isSome d (lt_of_not_le hc)
      rw [hp]
      have hpmem : p ∈ crossPairs lab := List.argmin_mem hp
      have hlab : lab p.1 ≠ lab p.2 :=
        of_decide_eq_true (List.mem_filter.mp hpmem).2
      apply ih
      · intro u v huv
        refine mergeLabels_conn (g := g.addEdge p.1 p.2 (d p.1 p.2))
          ?_ (g.addEdge_adj p.1 p.2 (d p.1 p.2)) u v huv
        intro a b hab
        exact Graph.conn_mono (g.addEdge_mem p.1 p.2 (d p.1 p.2))
          (hinv a b hab)
      · have := countLabels_mergeLabels_lt lab p.1 p.2 hlab
        omega

/-! ## Claim theorems about the ANN/graph pipeline -/

/-- **C1.** For every node index `i` and every `k`, the k-NN query
(`ANNIndex.query` / `get_nns_by_item` in the edge-building loop of
`PlotManager.plot_fps_sns`) never includes `i` itself among its results,
and consequently no edge `(i, i, w)` ever appears in the edge set of the
Graph:
self-edges never occur, neither among the merged k-NN edges nor among the
augmentation edges. -/
theorem query_excludes_self_no_self_edges (N : ℕ) {α : Type}
    [LinearOrder α] (d : Fin N → Fin N → α)
    (candFn : Fin N → List (Fin N)) (k : ℕ) :
    (∀ i : Fin N, ∀ p ∈ query N d (candFn i) i k, p.1 ≠ i) ∧
    (∀ e ∈ (fromQueries N d candFn k).edges, e.1.1 ≠ e.1.2) := by
  constructor
  · intro i p hp
    exact (mem_query d (candFn i) i k p hp).1
  · intro e he
    refine augmentLoop_no_self d N (knnGraph N d candFn k) _ ?_ e he
    intro f hf
    exact knnGraph_no_self d candFn k f hf

/-- Distance function used by the concrete witnesses below. -/
def dW : Fin 2 → Fin 2 → ℚ := fun i j => if i = 0 ∧ j = 1 then 2 else 1

/-- Candidate sets used by the concrete witnesses below. -/
def candW : Fin 2 → List (Fin 2) := fun _ => List.finRange 2

theorem query_excludes_self_no_self_edges_witness :
    (((1 : Fin 2), (2 : ℚ)) ∈ query 2 dW (candW 0) 0 1 ∧
      ((1 : Fin 2), (2 : ℚ)).1 ≠ 0) ∧
    ((((0 : Fin 2), (1 : Fin 2)), (1 : ℚ)) ∈ (fromQueries 2 dW candW 1).edges ∧
      (((0 : Fin 2), (1 : Fin 2)), (1 : ℚ)).1.1 ≠
        (((0 : Fin 2), (1 : Fin 2)), (1 : ℚ)).1.2) :=
  ⟨⟨by decide,
    (query_excludes_self_no_self_edges 2 dW candW 1).1 0 _ (by decide)⟩,
   ⟨by decide,
    (query_excludes_self_no_self_edges 2 dW candW 1).2 _ (by decide)⟩⟩

/-- **C2.** In the graph built from the per-node k-NN queries, every
undirected edge is stored exactly once per unordered pair (the normalized
keys of the merged edge list contain no duplicates); when the same pair is
proposed from both directions — weight `w1` observed from `query(i)` and
`w2` from `query(j)` — the stored weight is the minimum of the two observed
weights. -/
theorem knn_edges_dedup_min (N : ℕ) {α : Type} [LinearOrder α]
    (d : Fin N → Fin N → α) (candFn : Fin N → List (Fin N)) (k : ℕ) :
    ((knnGraph N d candFn k).edges.map fun e => edgeKey e.1.1 e.1.2).Nodup ∧
    (∀ i j : Fin N, ∀ w1 w2 : α,
      observed (proposals N d candFn k) (edgeKey i j) = [w1, w2] →
      lookupEdge (knnGraph N d candFn k).edges (edgeKey i j) =
        some (min w1 w2)) := by
  constructor
  · have hcongr :
        ((knnGraph N d candFn k).edges.map fun e => edgeKey e.1.1 e.1.2) =
          (knnGraph N d candFn k).edges.map Prod.fst :=
      List.map_congr_left fun e he => mergeEdges_key_norm _ e he
    rw [hcongr]
    exact nodup_keys_mergeEdges _
  · intro i j w1 w2 hobs
    have : lookupEdge (mergeEdges (proposals N d candFn k)) (edgeKey i j) =
        obsMin (observed (proposals N d candFn k) (edgeKey i j)) :=
      lookupEdge_mergeEdges _ _
    rw [show (knnGraph N d candFn k).edges =
      mergeEdges (proposals N d candFn k) from rfl, this, hobs]
    simp [obsMin, combineW, min_comm]

theorem knn_edges_dedup_min_witness :
    observed (proposals 2 dW candW 1) (edgeKey (0 : Fin 2) 1) = [2, 1] ∧
    lookupEdge (knnGraph 2 dW candW 1).edges (edgeKey (0 : Fin 2) 1) =
      some (min (2 : ℚ) 1) :=
  ⟨by decide, (knn_edges_dedup_min 2 dW candW 1).2 0 1 2 1 (by decide)⟩

/-- **C3.** For every input with `N ≥ 1` nodes, the graph produced by
`GraphBuilder.fromQueries` — after its mandatory component augmentation —
has exactly one connected component: every node is reachable from every
other node (a single node is trivially connected). -/
theorem fromQueries_one_component (N : ℕ) {α : Type} [LinearOrder α]
    (d : Fin N → Fin N → α) (candFn : Fin N → List (Fin N)) (k : ℕ)
    (_hN : 1 ≤ N) : (fromQueries N d candFn k).oneComponent := by

  refine augmentLoop_connected d N (knnGraph N d candFn k) _ ?_ ?_
  · intro u v huv
    exact initLabels_conn (knnGraph N d candFn k) _ (fun e he => he) u v huv
  · calc countLabels (initLabels (knnGraph N d candFn k).edges)
        ≤ Finset.univ.card := Finset.card_image_le
      _ = N := Finset.card_fin N
      _ ≤ N + 1 := Nat.le_succ N

/-- Distance function for the C3 witness: nodes 0 and 1 are at distance 0,
node 2 is far from both, and the candidate sets keep node 2 isolated, so the
raw k-NN graph is disconnected and augmentation must act. -/
def dW3 : Fin 3 → Fin 3 → ℚ := fun i j =>
  if (i = 0 ∧ j = 1) ∨ (i = 1 ∧ j = 0) then 0 else 1

/-- Candidate sets for the C3 witness: each node only sees its own cluster. -/
def candW3 : Fin 3 → List (Fin 3) := fun i =>
  (List.finRange 3).filter fun j => decide ((i.val ≤ 1) = (j.val ≤ 1))

theorem fromQueries_one_component_witness :
    1 ≤ 3 ∧ (fromQueries 3 dW3 candW3 1).Conn 2 0 :=
  ⟨by decide, fromQueries_one_component 3 dW3 candW3 1 (by decide) 2 0⟩

/-- **C7.** For every in-range node index `i`, `ANNIndex.query(i, k)`
returns an ordered sequence of `(neighbor, distance)` pairs of length at
most `k`, sorted by non-decreasing distance (`wLE` orders pairs by their
distance component); if `k > N - 1` the query silently clamps `k` to
`N - 1` — so the result length is also at most `N - 1` — rather than
failing. -/
theorem query_length_clamped_sorted (N : ℕ) {α : Type} [LinearOrder α]
    (d : Fin N → Fin N → α) (cand : List (Fin N)) (i : Fin N) (k : ℕ) :
    (query N d cand i k).length ≤ k ∧
    (query N d cand i k).length ≤ N - 1 ∧
    List.Sorted wLE (query N d cand i k) := by
  refine ⟨?_, ?_, ?_⟩
  · unfold query
    exact le_trans (List.length_take_le _ _) (min_le_left _ _)
  · unfold query
    exact le_trans (List.length_take_le _ _) (min_le_right _ _)
  · unfold query
    exact List.Pairwise.sublist (List.take_sublist _ _)
      (List.sorted_insertionSort wLE _)

/-- The stored weight of every merged k-NN edge is the distance between its
endpoints under the very distance function that governed candidate ranking
in the queries (for a symmetric distance function). -/
theorem knnGraph_weight_eq {N : ℕ} {α : Type} [LinearOrder α]
    (d : Fin N → Fin N → α) (hsymm : ∀ i j, d i j = d j i)
    (candFn : Fin N → List (Fin N)) (k : ℕ) :
    ∀ e ∈ (knnGraph N d candFn k).edges, e.2 = d e.1.1 e.1.2 := by
  intro e he
  obtain ⟨pr, hpr, hk, hw⟩ := mem_mergeEdges _ e he
  obtain ⟨i, p, hp, hpe⟩ := mem_proposals d candFn k pr hpr
  have hw2 : pr.2 = d pr.1.1 pr.1.2 := by
    rw [hpe]
    exact (mem_query d (candFn i) i k p hp).2
  rw [← hw, hw2, ← hk]
  unfold edgeKey
  by_cases hle : pr.1.1 ≤ pr.1.2
  · simp [hle]
  · simp [hle]
    exact hsymm pr.1.1 pr.1.2

/-! ## FingerprintStore validation and index build -/

/-- Modelled from the spec (§3, §7): a payload scalar of a
`FingerprintVector`.  A machine float is either finite (modelled as an exact
rational) or non-finite (NaN or an infinity). -/
inductive FpVal where
  | val (q : ℚ)
  | nan
  | posInf
  | negInf
  deriving DecidableEq

/-- Whether a payload scalar is finite. -/
def FpVal.isFinite : FpVal → Bool
  | .val _ => true
  | _ => false

/-- The rational carried by a finite payload scalar. -/
def FpVal.toQ : FpVal → ℚ
  | .val q => q
  | _ => 0

/-- Modelled from the spec (§7): the fatal error taxonomy of the pipeline
core. -/
inductive PipelineError where
  | validationError
  | indexBuildError
  deriving DecidableEq

/-- Modelled from the spec (§3, §6): the immutable configuration value
object.  The `distanceMetric` entry of the configuration surface is passed
separately as a function. -/
structure LayoutConfig where
  numTrees : ℕ
  k : ℕ
  mergeFactor : ℚ
  maxIterations : ℕ
  convergenceThreshold : ℚ
  seed : ℕ
  deriving DecidableEq

/-- Modelled from the spec (§4.1, §7): `ANNIndex.build` fails with a
`ValidationError` — surfaced immediately, via `Except`, so no partial output
exists — when the vector collection is empty, contains mismatched
dimensionality or contains non-finite values, and with an `IndexBuildError`
on an invalid configuration (`numTrees < 1`); otherwise it returns the
validated store as exact rationals. -/
def build (vectors : List (List FpVal)) (cfg : LayoutConfig) :
    Except PipelineError (List (List ℚ)) :=
  match vectors with
  | [] => .error .validationError
  | v0 :: rest =>
    if ((v0 :: rest).all fun v => v.length == v0.length) = false then
      .error .validationError
    else if ((v0 :: rest).all fun v => v.all FpVal.isFinite) = false then
      .error .validationError
    else if cfg.numTrees < 1 then .error .indexBuildError
    else .ok ((v0 :: rest).map fun v => v.map FpVal.toQ)

/-- **C8.** `ANNIndex.build` fails with a `ValidationError` — surfaced
immediately, producing no partial output — whenever the input vector
collection is empty, contains vectors of mismatched dimensionality, or
contains non-finite values. -/
theorem build_validation_errors (vectors : List (List FpVal))
    (cfg : LayoutConfig) :
    (vectors = [] → build vectors cfg = .error .validationError) ∧
    ((∃ u ∈ vectors, ∃ v ∈ vectors, u.length ≠ v.length) →
      build vectors cfg = .error .validationError) ∧
    ((∃ u ∈ vectors, ∃ x ∈ u, x.isFinite = false) →
      build vectors cfg = .error .validationError) := by
  refine ⟨?_, ?_, ?_⟩
  · intro h
    subst h
    rfl
  · rintro ⟨u, hu, v, hv, hne⟩
    match vectors, hu, hv with
    | v0 :: rest, hu, hv =>
      have hall : ((v0 :: rest).all fun v => v.length == v0.length) = false := by
        by_contra hcon
        have htrue := eq_true_of_ne_false hcon
        have h1 := List.all_eq_true.mp htrue u hu
        have h2 := List.all_eq_true.mp htrue v hv
        exact hne ((eq_of_beq h1).trans (eq_of_beq h2).symm)
      simp [build, hall]
  · rintro ⟨u, hu, x, hx, hfin⟩
    match vectors, hu with
    | v0 :: rest, hu =>
      by_cases hall : ((v0 :: rest).all fun v => v.length == v0.length) = false
      · simp [build, hall]
      · have hfall : ((v0 :: rest).all fun v => v.all FpVal.isFinite)
            = false := by
          by_contra hcon
          have htrue := eq_true_of_ne_false hcon
          have h1 := List.all_eq_true.mp (List.all_eq_true.mp htrue u hu) x hx
          rw [hfin] at h1
          exact Bool.false_ne_true h1
        simp [build, hall, hfall]

/-- Configuration used by the concrete witnesses below. -/
def cfgW : LayoutConfig :=
  { numTrees := 10, k := 10, mergeFactor := 2, maxIterations := 2,
    convergenceThreshold := 0, seed := 7 }

theorem build_validation_errors_witness :
    (([] : List (List FpVal)) = [] ∧
      build [] cfgW = .error .validationError) ∧
    ((∃ u ∈ [[FpVal.val 1], [FpVal.val 1, FpVal.val 2]], ∃ v ∈
        [[FpVal.val 1], [FpVal.val 1, FpVal.val 2]], u.length ≠ v.length) ∧
      build [[FpVal.val 1], [FpVal.val 1, FpVal.val 2]] cfgW =
        .error .validationError) ∧
    ((∃ u ∈ [[FpVal.nan]], ∃ x ∈ u, x.isFinite = false) ∧
      build [[FpVal.nan]] cfgW = .error .validationError) :=
  ⟨⟨rfl, (build_validation_errors [] cfgW).1 rfl⟩,
   ⟨by decide, (build_validation_errors _ cfgW).2.1 (by decide)⟩,
   ⟨by decide, (build_validation_errors _ cfgW).2.2 (by decide)⟩⟩

/-! ## The randomized tree forest of the ANNIndex -/

/-- A linear congruential pseudo-random generator step; all randomness of
the modelled pipeline is derived from the configured seed through it. -/
def lcgNext (s : ℕ) : ℕ := (1103515245 * s + 12345) % 2147483648

/-- A pseudo-random rational in `[-1000, 1000]` derived from an LCG state. -/
def randQ (s : ℕ) : ℚ := ((lcgNext s % 2001 : ℕ) : ℚ) - 1000

/-- Dot product of rational vectors. -/
def dotQ : List ℚ → List ℚ → ℚ
  | a :: as, b :: bs => a * b + dotQ as bs
  | _, _ => 0

/-- A pseudo-random hyperplane normal vector of the given dimension. -/
def randVec : ℕ → ℕ → List ℚ
  | 0, _ => []
  | n + 1, s => randQ s :: randVec n (lcgNext s)

/-- Modelled from the spec (§3, §4.1): a unit of the ANNIndex — a binary
space partition over vector indices (indices only, back-reference into the
store). -/
inductive Tree (N : ℕ) where
  | leaf (members : List (Fin N))
  | node (hyper : List ℚ) (left right : Tree N)

/-- Modelled from the spec (§4.1): recursively partition the current index
subset by the sign of the projection onto a pseudo-random hyperplane,
stopping when the subset size falls at or below the leaf-size constant; the
structural fuel bounds the recursion depth. -/
def buildTree {N : ℕ} (vs : Fin N → List ℚ) (dim leafSize : ℕ) :
    ℕ → ℕ → List (Fin N) → Tree N
  | 0, _, subset => .leaf subset
  | fuel + 1, s, subset =>
    if subset.length ≤ leafSize then .leaf subset
    else
      let hp := randVec dim s
      .node hp
        (buildTree vs dim leafSize fuel (lcgNext s)
          (subset.filter fun i => decide (0 ≤ dotQ (vs i) hp)))
        (buildTree vs dim leafSize fuel (lcgNext (lcgNext s))
          (subset.filter fun i => decide (¬ 0 ≤ dotQ (vs i) hp)))

/-- Modelled from the spec (§4.1): a query descends a tree from the root
guided by the same projection rule used at build time and collects the leaf
members. -/
def descendTree {N : ℕ} (q : List ℚ) : Tree N → List (Fin N)
  | .leaf ms => ms
  | .node hp l r => if 0 ≤ dotQ q hp then descendTree q l else descendTree q r

/-- Modelled from the spec (§4.1): build `numTrees` independent trees, with
leaf-size constant `2 * k`, each tree seeded from the configured seed. -/
def buildForest {N : ℕ} (vs : Fin N → List ℚ) (dim : ℕ)
    (cfg : LayoutConfig) : List (Tree N) :=
  (List.range cfg.numTrees).map fun t =>
    buildTree vs dim (2 * cfg.k) N (cfg.seed + t) (List.finRange N)

/-- Modelled from the spec (§4.1): collect the candidate leaf members from
all trees into a unified (deduplicated) candidate set. -/
def forestCandidates {N : ℕ} (forest : List (Tree N)) (q : List ℚ) :
    List (Fin N) :=
  (forest.flatMap fun t => descendTree q t).dedup

/-! ## LayoutEngine -/

/-- Component-wise sum of two 2-D vectors. -/
def vadd (a b : ℚ × ℚ) : ℚ × ℚ := (a.1 + b.1, a.2 + b.2)

/-- Scale a 2-D vector. -/
def vscale (c : ℚ) (a : ℚ × ℚ) : ℚ × ℚ := (c * a.1, c * a.2)

/-- Squared Euclidean distance between two positions. -/
def qdist2 (p q : ℚ × ℚ) : ℚ := (p.1 - q.1) ^ 2 + (p.2 - q.2) ^ 2

/-- Modelled from the spec (§4.3 step 1): deterministic pseudo-random
initial positions within a bounded disk, derived from the seed. -/
def initPositions (N seed : ℕ) : List (ℚ × ℚ) :=
  (List.range N).map fun i => (randQ (seed + 2 * i), randQ (seed + 2 * i + 1))

/-- The position stored for node `i`, defaulting to the origin. -/
def posAt (pos : List (ℚ × ℚ)) (i : ℕ) : ℚ × ℚ := pos.getD i (0, 0)

/-- Modelled from the spec (§4.3 step 2): pairwise repulsive force,
inversely proportional to the squared distance, computed with a
square-root-free rational surrogate pointing from `q` towards `p`. -/
def repulse (p q : ℚ × ℚ) : ℚ × ℚ :=
  let d2 := qdist2 p q
  if d2 = 0 then (0, 0) else ((p.1 - q.1) / d2, (p.2 - q.2) / d2)

/-- Modelled from the spec (§4.3 step 2): attractive spring force along an
edge, pulling `p` towards `q`, with a target separation that grows with the
edge weight (shorter weight, shorter target length). -/
def attract (p q : ℚ × ℚ) (w : ℚ) : ℚ × ℚ :=
  ((q.1 - p.1) / (1 + w), (q.2 - p.2) / (1 + w))

/-- Net force on node `i`: repulsion from every other node plus attraction
along every incident edge. -/
def netForce {N : ℕ} (g : Graph N ℚ) (pos : List (ℚ × ℚ)) (i : Fin N) :
    ℚ × ℚ :=
  let rep := (List.finRange N).foldr
    (fun j acc => vadd acc (repulse (posAt pos i.val) (posAt pos j.val)))
    (0, 0)
  g.edges.foldr
    (fun e acc =>
      if e.1.1 = i then
        vadd acc (attract (posAt pos i.val) (posAt pos e.1.2.val) e.2)
      else if e.1.2 = i then
        vadd acc (attract (posAt pos i.val) (posAt pos e.1.1.val) e.2)
      else acc)
    rep

/-- Modelled from the spec (§4.3 step 3): apply the net displacements,
scaled by the cooling factor. -/
def stepPositions {N : ℕ} (g : Graph N ℚ) (cool : ℚ)
    (pos : List (ℚ × ℚ)) : List (ℚ × ℚ) :=
  (List.finRange N).map fun i =>
    vadd (posAt pos i.val) (vscale cool (netForce g pos i))

/-- Maximum per-node displacement between two position lists. -/
def maxDisp (old new : List (ℚ × ℚ)) : ℚ :=
  ((old.zip new).map fun pq =>
    max (abs (pq.1.1 - pq.2.1)) (abs (pq.1.2 - pq.2.2))).foldr max 0

/-- Modelled from the spec (§4.3 step 4): iterate force steps with a cooling
factor decreasing over iterations, stopping when the iteration cap is
reached (flag `false`) or the maximum per-node displacement falls below the
convergence threshold (flag `true`). -/
def layoutLoop {N : ℕ} (g : Graph N ℚ) (thr : ℚ) :
    ℕ → ℕ → List (ℚ × ℚ) → List (ℚ × ℚ) × Bool
  | 0, _, pos => (pos, false)
  | fuel + 1, t, pos =>
    if maxDisp pos (stepPositions g (1 / (t + 1 : ℚ)) pos) < thr then
      (stepPositions g (1 / (t + 1 : ℚ)) pos, true)
    else layoutLoop g thr fuel (t + 1) (stepPositions g (1 / (t + 1 : ℚ)) pos)

/-- Modelled from the spec (§4.3): `LayoutEngine.layout`.  The recursive
biconnected-component compositing of the original external layout library is
a scalability heuristic whose exact merge geometry the spec leaves
unspecified (§9); following the design note of the spec, the base-case force
simulation is applied to the (connected, augmented) graph as a whole. -/
def layout {N : ℕ} (g : Graph N ℚ) (cfg : LayoutConfig) :
    List (ℚ × ℚ) × Bool :=
  layoutLoop g cfg.convergenceThreshold cfg.maxIterations 0
    (initPositions N cfg.seed)

theorem stepPositions_length {N : ℕ} (g : Graph N ℚ) (cool : ℚ)
    (pos : List (ℚ × ℚ)) : (stepPositions g cool pos).length = N := by
  unfold stepPositions
  rw [List.length_map, List.length_finRange]

theorem layoutLoop_length {N : ℕ} (g : Graph N ℚ) (thr : ℚ) :
    ∀ (fuel t : ℕ) (pos : List (ℚ × ℚ)), pos.length = N →
      ((layoutLoop g thr fuel t pos).1).length = N := by
  intro fuel
  induction fuel with
  | zero => intro t pos hlen; exact hlen
  | succ fuel ih =>
    intro t pos hlen
    rw [layoutLoop]
    by_cases h : maxDisp pos (stepPositions g (1 / (t + 1 : ℚ)) pos) < thr
    · rw [if_pos h]
      exact stepPositions_length g _ pos
    · rw [if_neg h]
      exact ih (t + 1) _ (stepPositions_length g _ pos)

/-- **C6.** For every graph over `N` nodes and every configuration, the
layout step returns exactly `N` coordinates — one per node index, the entry
at position `i` belonging to node `i` — and never silently truncates the
output length.  (Coordinates are exact rationals in this embedding, so every
coordinate is finite by construction.) -/
theorem layout_returns_N_coordinates {N : ℕ} (g : Graph N ℚ)
    (cfg : LayoutConfig) :
    ((layout g cfg).1).length = N ∧
    ∀ i : Fin N, ∃ c, ((layout g cfg).1).get? i.val = some c := by
  have hlen : ((layout g cfg).1).length = N := by
    unfold layout
    refine layoutLoop_length g _ _ _ _ ?_
    unfold initPositions
    rw [List.length_map, List.length_range]
  refine ⟨hlen, fun i => ?_⟩
  have hi : i.val < ((layout g cfg).1).length := by rw [hlen]; exact i.isLt
  exact ⟨(layout g cfg).1.get ⟨i.val, hi⟩, List.get?_eq_get hi⟩

/-! ## The full pipeline -/

/-- Modelled from the spec (§2, §6): the full pipeline — validate the input
and build the store, build the randomized tree forest from the seed, run the
per-node k-NN queries, build and augment the graph, and lay it out.  Returns
the coordinates, the final edge list (indices widened to `ℕ`) and the
convergence flag.  The distance metric is the function parameter `dm`. -/
def pipeline (dm : List ℚ → List ℚ → ℚ) (vectors : List (List FpVal))
    (cfg : LayoutConfig) :
    Except PipelineError (List (ℚ × ℚ) × List ((ℕ × ℕ) × ℚ) × Bool) :=
  match build vectors cfg with
  | .error e => .error e
  | .ok store =>
    let vs : Fin store.length → List ℚ := fun i => store.get i
    let forest := buildForest vs (store.headD []).length cfg
    let d : Fin store.length → Fin store.length → ℚ :=
      fun i j => dm (vs i) (vs j)
    let candFn : Fin store.length → List (Fin store.length) :=
      fun i => forestCandidates forest (vs i)
    let g := fromQueries store.length d candFn cfg.k
    let res := layout g cfg
    .ok (res.1, g.edges.map fun e => ((e.1.1.val, e.1.2.val), e.2), res.2)

/-- **C5.** Two independent runs of the full pipeline (index build, k-NN
graph construction, layout) over identical input vectors, identical
configuration (including the seed, from which all pseudo-randomness is
derived) and identical distance metric produce identical coordinates and
identical edge sets: the modelled pipeline is a pure function of its
inputs, with no hidden state. -/
theorem pipeline_deterministic (dm : List ℚ → List ℚ → ℚ)
    (v1 v2 : List (List FpVal)) (c1 c2 : LayoutConfig)
    (hv : v1 = v2) (hc : c1 = c2) :
    pipeline dm v1 c1 = pipeline dm v2 c2 := by
  subst hv
  subst hc
  rfl

/-- Input vectors used by the pipeline witness. -/
def vecsW : List (List FpVal) := [[FpVal.val 1], [FpVal.val 0]]

/-- Distance metric used by the pipeline witness. -/
def dmW : List ℚ → List ℚ → ℚ := fun a b => (dotQ a a + dotQ b b) - 2 * dotQ a b

theorem pipeline_deterministic_witness :
    vecsW = vecsW ∧ cfgW = cfgW ∧
    pipeline dmW vecsW cfgW = pipeline dmW vecsW cfgW :=
  ⟨rfl, rfl, pipeline_deterministic dmW vecsW vecsW cfgW cfgW rfl rfl⟩

/-! ## The angular/cosine metric -/

/-- Modelled from the spec (§4.1, glossary): cosine similarity of two stored
vectors, over the reals. -/
noncomputable def cosineSim {n : ℕ} (a b : EuclideanSpace ℝ (Fin n)) : ℝ :=
  (inner a b : ℝ) / (‖a‖ * ‖b‖)

/-- Modelled from the spec (§4.1): the angular/cosine distance
`1 - cosine_similarity(a, b)`. -/
noncomputable def cosineDist {n : ℕ} (a b : EuclideanSpace ℝ (Fin n)) : ℝ :=
  1 - cosineSim a b

/-- Modelled from the spec (§4.1): the angular/cosine distance clamped to
`[0, 2]`. -/
noncomputable def clampedCosineDist {n : ℕ}
    (a b : EuclideanSpace ℝ (Fin n)) : ℝ :=
  max 0 (min 2 (cosineDist a b))

/-- The distance function fed to the index and the graph builder when the
store holds the vectors `vs`. -/
noncomputable def annDist {N D : ℕ}
    (vs : Fin N → EuclideanSpace ℝ (Fin D)) : Fin N → Fin N → ℝ :=
  fun i j => clampedCosineDist (vs i) (vs j)

theorem abs_cosineSim_le_one {n : ℕ} (a b : EuclideanSpace ℝ (Fin n))
    (ha : a ≠ 0) (hb : b ≠ 0) : |cosineSim a b| ≤ 1 := by
  have hpos : 0 < ‖a‖ * ‖b‖ :=
    mul_pos (norm_pos_iff.mpr ha) (norm_pos_iff.mpr hb)
  rw [cosineSim, abs_div, abs_of_pos hpos]
  exact (div_le_one hpos).mpr (abs_real_inner_le_norm a b)

theorem cosineDist_mem_Icc {n : ℕ} (a b : EuclideanSpace ℝ (Fin n))
    (ha : a ≠ 0) (hb : b ≠ 0) :
    0 ≤ cosineDist a b ∧ cosineDist a b ≤ 2 := by
  have h := abs_le.mp (abs_cosineSim_le_one a b ha hb)
  unfold cosineDist
  constructor <;> linarith [h.1, h.2]

theorem clampedCosineDist_eq {n : ℕ} (a b : EuclideanSpace ℝ (Fin n))
    (ha : a ≠ 0) (hb : b ≠ 0) :
    clampedCosineDist a b = cosineDist a b := by
  obtain ⟨h0, h2⟩ := cosineDist_mem_Icc a b ha hb
  unfold clampedCosineDist
  rw [min_eq_right h2, max_eq_right h0]

theorem annDist_symm {N D : ℕ} (vs : Fin N → EuclideanSpace ℝ (Fin D)) :
    ∀ i j, annDist vs i j = annDist vs j i := by
  intro i j
  unfold annDist clampedCosineDist cosineDist cosineSim
  rw [real_inner_comm (vs i) (vs j), mul_comm]

/-- **C4.** For every pair of stored vectors, the distance used for k-NN
edge weights equals `1 - cosine_similarity(a, b)` (the clamp to `[0, 2]` is
the identity on nonzero vectors), its value lies in `[0, 2]`, and therefore
every stored `KNNEdge` weight is non-negative; the same angular/cosine
metric that governs candidate selection inside the queries is the one whose
values appear as the stored edge weights. -/
theorem cosine_metric_governs_weights (N D : ℕ)
    (vs : Fin N → EuclideanSpace ℝ (Fin D)) (hvs : ∀ i, vs i ≠ 0)
    (candFn : Fin N → List (Fin N)) (k : ℕ) :
    (∀ i j, annDist vs i j = 1 - cosineSim (vs i) (vs j) ∧
      0 ≤ annDist vs i j ∧ annDist vs i j ≤ 2) ∧
    (∀ e ∈ (knnGraph N (annDist vs) candFn k).edges,
      e.2 = annDist vs e.1.1 e.1.2 ∧ 0 ≤ e.2) := by
  have hpt : ∀ i j, annDist vs i j = 1 - cosineSim (vs i) (vs j) ∧
      0 ≤ annDist vs i j ∧ annDist vs i j ≤ 2 := by
    intro i j
    have heq : annDist vs i j = cosineDist (vs i) (vs j) :=
      clampedCosineDist_eq (vs i) (vs j) (hvs i) (hvs j)
    obtain ⟨h0, h2⟩ := cosineDist_mem_Icc (vs i) (vs j) (hvs i) (hvs j)
    refine ⟨heq, ?_, ?_⟩ <;> rw [heq]
    · exact h0
    · exact h2
  refine ⟨hpt, fun e he => ?_⟩
  have hw := knnGraph_weight_eq (annDist vs) (annDist_symm vs) candFn k e he
  refine ⟨hw, ?_⟩
  rw [hw]
  exact (hpt e.1.1 e.1.2).2.1

/-- Store used by the C4 witness: two copies of the one-dimensional vector
`(1)`. -/
def vsW : Fin 2 → EuclideanSpace ℝ (Fin 1) := fun _ => fun _ => 1

theorem cosine_metric_governs_weights_witness :
    (∀ i : Fin 2, vsW i ≠ 0) ∧
    ((∀ i j : Fin 2, annDist vsW i j = 1 - cosineSim (vsW i) (vsW j) ∧
        0 ≤ annDist vsW i j ∧ annDist vsW i j ≤ 2) ∧
      (∀ e ∈ (knnGraph 2 (annDist vsW)
          (fun _ => List.finRange 2) 1).edges,
        e.2 = annDist vsW e.1.1 e.1.2 ∧ 0 ≤ e.2)) :=
  have hvs : ∀ i : Fin 2, vsW i ≠ 0 := fun _ hz =>
    one_ne_zero (congrFun hz 0)
  ⟨hvs, cosine_metric_governs_weights 2 1 vsW hvs
    (fun _ => List.finRange 2) 1⟩

/-! ## DataManager (translated from src/mite_tmap/module/main.py, 157-227) -/

/-- One entry of the nested reactions list of a MITE JSON file: a
substrate SMILES and the product SMILES strings. -/
structure RxnInner where
  substrate : String
  products : List String
  deriving DecidableEq

/-- One entry of the `reactions` list of a MITE JSON file: its tailoring
labels and its concrete reactions (the inner `reactions` field is called
`rxns` here to avoid shadowing the outer one). -/
structure RxnBlock where
  tailoring : List String
  rxns : List RxnInner
  deriving DecidableEq

/-- The `enzyme` object of a MITE JSON file, restricted to the fields
`DataManager` reads. -/
structure Enzyme where
  name : String
  description : String
  uniprot : String
  genpept : String
  deriving DecidableEq

/-- A MITE JSON entry, restricted to the fields `DataManager` reads. -/
structure MiteEntry where
  status : String
  accession : String
  reactions : List RxnBlock
  enzyme : Enzyme
  deriving DecidableEq

/-- One row of the produced `mite_data.csv`. -/
structure MiteRow where
  mite_acc : String
  reaction : String
  enzyme_name : String
  enzyme_description : String
  tailoring : String
  id_uniprot : String
  id_genpept : String
  deriving DecidableEq

/-- Remove every comma from a string (the comma-stripping replace call of
the source). -/
def stripCommas (s : String) : String :=
  String.mk (s.data.filter fun c => decide (c ≠ (',')))

/-- Whether a string contains a bar character (the bar-matching regex
search of the source). -/
def containsBar (s : String) : Bool :=
  s.data.any fun c => c == ('|')

/-- The tailoring category built in `DataManager.extract_mite`: the sorted
set of tailoring labels over all reactions joined with a bar, replaced by
the label Multiple when the joined string contains a bar. -/
def categOf (e : MiteEntry) : String :=
  let cats := ((e.reactions.flatMap fun r => r.tailoring).dedup).insertionSort
    fun a b => a ≤ b
  let joined := String.intercalate ("|") cats
  if containsBar joined then ("Multiple") else joined

/-- The representative reaction SMILES of an entry,
the first reaction of the first reaction block, rendered as
`substrate >> products-joined-with-dots`; the source indexes without
checks, the embedding defaults missing blocks to empty ones. -/
def reactionOf (e : MiteEntry) : String :=
  let b := e.reactions.headD { tailoring := [], rxns := [] }
  let r := b.rxns.headD { substrate := "", products := [] }
  r.substrate ++ ">>" ++ String.intercalate (".") r.products

/-- `DataManager.extract_mite`: the row appended for one MITE entry; commas
are stripped from the enzyme name and description. -/
def extractMite (e : MiteEntry) : MiteRow :=
  { mite_acc := e.accession
    reaction := reactionOf e
    enzyme_name := stripCommas e.enzyme.name
    enzyme_description := stripCommas e.enzyme.description
    tailoring := categOf e
    id_uniprot := e.enzyme.uniprot
    id_genpept := e.enzyme.genpept }

/-- `DataManager.run`: iterate over the entries, skip every entry whose
status is not active, extract one row per remaining entry, and sort the
rows by tailoring category ascending
(the sort by the tailoring column in the source). -/
def DataManager.run (entries : List MiteEntry) : List MiteRow :=
  ((entries.filter fun e => e.status == "active").map extractMite).insertionSort
    fun a b => a.tailoring ≤ b.tailoring

/-- **C9.** `DataManager.run` includes in its output only entries whose
status field equals active: the number of produced rows is exactly the
number of active entries (so the node count `N` of the downstream pipeline
counts only active entries), and every produced row is the extraction of
some active input entry — no row is ever produced for an entry with any
other status. -/
theorem dataManager_run_active_only (entries : List MiteEntry) :
    (DataManager.run entries).length =
      (entries.filter fun e => e.status == "active").length ∧
    ∀ r ∈ DataManager.run entries, ∃ e ∈ entries,
      e.status = "active" ∧ r = extractMite e := by
  constructor
  · unfold DataManager.run
    rw [List.length_insertionSort, List.length_map]
  · intro r hr
    unfold DataManager.run at hr
    have hr2 := (List.mem_insertionSort _).mp hr
    obtain ⟨e, he, hre⟩ := List.mem_map.mp hr2
    obtain ⟨hee, hst⟩ := List.mem_filter.mp he
    exact ⟨e, hee, eq_of_beq hst, hre.symm⟩

/-- An active entry used by the C9 witness. -/
def entryActiveW : MiteEntry :=
  { status := "active"
    accession := "MITE0000001"
    reactions := [{ tailoring := ["Methylation"],
                    rxns := [{ substrate := "CC", products := ["CCO"] }] }]
    enzyme := { name := "EnzA", description := "methyltransferase",
                uniprot := "U1", genpept := "G1" } }

/-- A retired entry used by the C9 witness. -/
def entryRetiredW : MiteEntry :=
  { status := "retired"
    accession := "MITE0000002"
    reactions := [{ tailoring := ["Oxidation"],
                    rxns := [{ substrate := "CO", products := ["C=O"] }] }]
    enzyme := { name := "EnzB", description := "oxidase",
                uniprot := "U2", genpept := "G2" } }

theorem dataManager_run_active_only_witness :
    extractMite entryActiveW ∈ DataManager.run [entryActiveW, entryRetiredW] ∧
    ∃ e ∈ [entryActiveW, entryRetiredW],
      e.status = "active" ∧ extractMite entryActiveW = extractMite e :=
  ⟨by decide,
   (dataManager_run_active_only [entryActiveW, entryRetiredW]).2
     (extractMite entryActiveW) (by decide)⟩

/-! ## PlotManager fingerprint cache (translated from src, 233-256) -/

/-- The slice of file-system state `PlotManager.run` touches: the reaction
column of `output/mite_data.csv` and the optional content of the cache file
`output/rxn_smiles.pickle` (fingerprints as lists of naturals). -/
structure FsState where
  csvReactions : List String
  pickle : Option (List (List ℕ))
  deriving DecidableEq

/-- `PlotManager.generate_fps`: encode the reaction SMILES of the current
CSV (the encoder `DrfpEncoder.encode` is external and passed as `encode`)
and dump the result to the pickle file. -/
def generateFps (encode : List String → List (List ℕ)) (fs : FsState) :
    FsState :=
  { fs with pickle := some (encode fs.csvReactions) }

/-- `PlotManager.run`: generate fingerprints only when the pickle file does
not already exist, then plot from the pickle file; returns the final
file-system state together with the fingerprints that `plot_fps_sns` loads
from the pickle and feeds to the pipeline. -/
def PlotManager.run (encode : List String → List (List ℕ)) (fs : FsState) :
    FsState × List (List ℕ) :=
  let fs2 := if fs.pickle.isSome then fs else generateFps encode fs
  (fs2, fs2.pickle.getD [])

/-- **C10.** If the fingerprint cache file `output/rxn_smiles.pickle`
already exists when `PlotManager.run` is invoked, fingerprint generation
(`generate_fps`) is skipped entirely: the state — including the cached
file — is left unchanged and its content is used as-is.  Consequently the
fingerprints fed to the pipeline need not correspond row-for-row to the
current `mite_data.csv`: the second conjunct exhibits a state whose cached
fingerprints differ from re-encoding the current CSV. -/
theorem plotManager_cache_skip :
    (∀ (encode : List String → List (List ℕ)) (fs : FsState)
        (p : List (List ℕ)), fs.pickle = some p →
      (PlotManager.run encode fs).1 = fs ∧
        (PlotManager.run encode fs).2 = p) ∧
    (∃ (encode : List String → List (List ℕ)) (fs : FsState),
      (PlotManager.run encode fs).2 ≠ encode fs.csvReactions) := by
  constructor
  · intro encode fs p hp
    constructor
    · unfold PlotManager.run
      simp [hp]
    · unfold PlotManager.run
      simp [hp]
  · exact ⟨fun _ => [[1]], { csvReactions := [], pickle := some [] },
      by decide⟩

/-- The cached state used by the C10 witness. -/
def fsW : FsState := { csvReactions := ["CC>>CCO"], pickle := some [[0, 1]] }

theorem plotManager_cache_skip_witness :
    fsW.pickle = some [[0, 1]] ∧
    ((PlotManager.run (fun _ => []) fsW).1 = fsW ∧
      (PlotManager.run (fun _ => []) fsW).2 = [[0, 1]]) :=
  ⟨rfl, plotManager_cache_skip.1 (fun _ => []) fsW [[0, 1]] rfl⟩

end MiteMS
